import Mathlib

/-!
Verification of the dog-bark detection pipeline
(`dog_bark_detector/detector.py`, `dog_bark_detector/audio_processor.py`,
`detect_bark.py`) against its natural-language specification.

Times, confidences and scores are modelled as rationals (`ℚ`); Python
dictionaries holding a detection become the `Detection` structure, and the
summary dictionary (whose key set differs between branches in the source)
becomes an association list `List (String × ℚ)`.  Python's `sorted` with a
key function is modelled by `List.insertionSort` on the key order (a stable
sort, as Python's is).
-/

/-- A detection event, as built in `DogBarkDetector.detect_in_waveform`:
the dictionary `{start_time, end_time, confidence, class_name, class_index}`.
`class_name`/`class_index` are `Option`s because the Python loop initialises
`max_dog_class = None` and `max_dog_class_idx = None` and may leave them so. -/
structure Detection where
  start_time : ℚ
  end_time : ℚ
  confidence : ℚ
  class_name : Option String
  class_index : Option Nat
deriving DecidableEq, Inhabited

/-- The key order used by `sorted(detections, key=lambda x: x['start_time'])`. -/
def detLE (a b : Detection) : Prop := a.start_time ≤ b.start_time

instance : DecidableRel detLE := fun _ _ => inferInstanceAs (Decidable (_ ≤ _))

instance : IsTotal Detection detLE := ⟨fun a b => le_total a.start_time b.start_time⟩

instance : IsTrans Detection detLE := ⟨fun _ _ _ h h' => le_trans h h'⟩

/-- The `for detection in sorted_detections[1:]` loop of
`DogBarkDetector.merge_detections`: first argument is the remaining
detections, second the running `current` episode.  The merge branch updates
`current['end_time']`/`current['confidence']`; the other branch appends
`current` to `merged` and restarts from the detection. -/
def mergeLoop (merge_gap : ℚ) : List Detection → Detection → List Detection
  | [], current => [current]
  | d :: ds, current =>
    if d.start_time - current.end_time ≤ merge_gap then
      mergeLoop merge_gap ds
        { current with end_time := max current.end_time d.end_time,
                       confidence := max current.confidence d.confidence }
    else
      current :: mergeLoop merge_gap ds d

/-- `DogBarkDetector.merge_detections`: sort by `start_time`, then scan,
merging detections whose gap to the running episode is at most `merge_gap`. -/
def merge_detections (detections : List Detection) (merge_gap : ℚ) : List Detection :=
  match detections.insertionSort detLE with
  | [] => []
  | d :: ds => mergeLoop merge_gap ds d

/-- Modelled from the spec's words for the Event Merger (section 4.3):
sort by `start_time` ascending (stable); initialise the current episode as
the first event; fold over the remaining events, absorbing an event whose
`start_time − current.end_time ≤ merge_gap` (end time and confidence become
the maxima, the running episode's labels are kept) and otherwise closing the
current episode and starting a new one from the event; finally append the
last current episode. -/
def mergeDetectionsSpec (detections : List Detection) (merge_gap : ℚ) : List Detection :=
  match detections.insertionSort detLE with
  | [] => []
  | first :: rest =>
    let p := rest.foldl
      (fun (acc : List Detection × Detection) e =>
        if e.start_time - acc.2.end_time ≤ merge_gap then
          (acc.1, { acc.2 with end_time := max acc.2.end_time e.end_time,
                               confidence := max acc.2.confidence e.confidence })
        else
          (acc.1 ++ [acc.2], e))
      ([], first)
    p.1 ++ [p.2]

/-- Python's `max` over a non-empty list (`max(confidences)` in
`get_detection_summary`); the `[]` case is never reached in the source,
which guards with `if not detections`. -/
def pyListMax : List ℚ → ℚ
  | [] => 0
  | x :: xs => xs.foldl max x

/-- Python's `min` over a non-empty list (`min(confidences)`). -/
def pyListMin : List ℚ → ℚ
  | [] => 0
  | x :: xs => xs.foldl min x

/-- `DogBarkDetector.get_detection_summary`.  The returned Python dictionary
is modelled as an association list so that the two branches can (as in the
source) return different key sets: the empty-input branch builds a literal
dictionary of five keys, the other builds six (`np.mean` is sum divided by
length). -/
def get_detection_summary (detections : List Detection) : List (String × ℚ) :=
  if detections = [] then
    [("total_events", 0), ("total_duration", 0), ("avg_confidence", 0),
     ("max_confidence", 0), ("min_confidence", 0)]
  else
    let confidences := detections.map (fun d => d.confidence)
    let durations := detections.map (fun d => d.end_time - d.start_time)
    [("total_events", (detections.length : ℚ)),
     ("total_duration", durations.sum),
     ("avg_duration", durations.sum / (detections.length : ℚ)),
     ("avg_confidence", confidences.sum / (detections.length : ℚ)),
     ("max_confidence", pyListMax confidences),
     ("min_confidence", pyListMin confidences)]

/-- The inner `for class_idx in self.dog_class_indices` loop of
`DogBarkDetector.detect_in_waveform`: threads the running triple
`(max_dog_score, max_dog_class, max_dog_class_idx)` and replaces it whenever
`frame_scores[class_idx] > max_dog_score`. -/
def scanDogClasses (class_names : List String) (frame_scores : List ℚ) :
    List Nat → ℚ × Option String × Option Nat → ℚ × Option String × Option Nat
  | [], acc => acc
  | idx :: rest, acc =>
    if acc.1 < frame_scores.getD idx 0 then
      scanDogClasses class_names frame_scores rest
        (frame_scores.getD idx 0, class_names.get? idx, some idx)
    else
      scanDogClasses class_names frame_scores rest acc

/-- The `for frame_idx, frame_scores in enumerate(scores)` loop of
`DogBarkDetector.detect_in_waveform`: each frame whose best dog-class score
reaches the threshold contributes one detection with
`start_time = frame_idx * 0.48` and `end_time = start_time + 0.96`. -/
def detectFrames (class_names : List String) (dog_class_indices : List Nat)
    (confidence_threshold : ℚ) : Nat → List (List ℚ) → List Detection
  | _, [] => []
  | frame_idx, frame_scores :: rest =>
    (let r := scanDogClasses class_names frame_scores dog_class_indices (0, none, none)
     if confidence_threshold ≤ r.1 then
       [{ start_time := (frame_idx : ℚ) * 0.48, end_time := (frame_idx : ℚ) * 0.48 + 0.96,
          confidence := r.1, class_name := r.2.1, class_index := r.2.2 }]
     else []) ++
    detectFrames class_names dog_class_indices confidence_threshold (frame_idx + 1) rest

/-- `DogBarkDetector.detect_in_waveform`, with the opaque YAMNet model
abstracted by its output `scores` (one class-probability vector per frame),
as the spec's Event Extractor prescribes. -/
def detect_in_waveform (class_names : List String) (dog_class_indices : List Nat)
    (confidence_threshold : ℚ) (scores : List (List ℚ)) : List Detection :=
  detectFrames class_names dog_class_indices confidence_threshold 0 scores

/-- The `while offset < total_duration` loop of
`AudioProcessor.process_in_chunks`, stepped for at most `fuel` iterations
(the source generator has no iteration bound; the second component records
whether the loop finished within `fuel` steps).  Each iteration yields
`(offset, offset + min(chunk_duration, total_duration - offset))` — the
audio buffer itself is opaque and omitted — and then advances `offset` by
`chunk_duration - overlap`; the trailing `if offset >= total_duration: break`
of the source coincides with the loop guard. -/
def processInChunksFuel (total_duration chunk_duration overlap : ℚ) :
    Nat → ℚ → List (ℚ × ℚ) × Bool
  | 0, offset => ([], !decide (offset < total_duration))
  | fuel + 1, offset =>
    if offset < total_duration then
      (let rest := processInChunksFuel total_duration chunk_duration overlap fuel
        (offset + (chunk_duration - overlap))
       ((offset, offset + min chunk_duration (total_duration - offset)) :: rest.1, rest.2))
    else ([], true)

/-- A detection list with the chunk's global start offset added to both
timestamps: the `for detection in detections` adjustment loop of
`process_audio_file` in `detect_bark.py`. -/
def adjustDetections (chunk_start : ℚ) (detections : List Detection) : List Detection :=
  detections.map (fun d =>
    { d with start_time := d.start_time + chunk_start, end_time := d.end_time + chunk_start })

/-- The chunk-accumulation loop of `process_audio_file` in `detect_bark.py`:
each chunk (represented by its global start and the chunk-local detections
the detector returned for it, the audio being opaque) has its detections'
timestamps shifted by the chunk's start and appended (`all_detections.extend`)
to the accumulator. -/
def process_audio_file (chunks : List (ℚ × List Detection)) : List Detection :=
  chunks.foldl (fun acc c => acc ++ adjustDetections c.1 c.2) []

/-- Heap-level model of `DogBarkDetector.merge_detections`, for the framing
property.  Python dictionaries live in a store (cells addressed by index);
the input is a list of cell addresses.  `.copy()` allocates a fresh cell at
the end of the store; the in-place updates of the merge branch write to the
current episode's cell (always a freshly allocated copy).  First argument of
the loop is the remaining sorted addresses, then the store, the current
episode's address, and the accumulated `merged` addresses. -/
def mergeLoopStore (merge_gap : ℚ) :
    List Nat → List Detection → Nat → List Nat → List Detection × List Nat
  | [], store, curId, merged => (store, merged ++ [curId])
  | id :: ids, store, curId, merged =>
    (let d := store.getD id default
     let cur := store.getD curId default
     if d.start_time - cur.end_time ≤ merge_gap then
       mergeLoopStore merge_gap ids
         (store.set curId
           { cur with end_time := max cur.end_time d.end_time,
                      confidence := max cur.confidence d.confidence })
         curId merged
     else
       mergeLoopStore merge_gap ids (store ++ [d]) store.length (merged ++ [curId]))

/-- `DogBarkDetector.merge_detections` on the store model: sort the input
addresses by the start time of the cell they point to (`sorted` builds a new
list of the same references), copy the first dictionary into a fresh cell,
and run the merge loop.  Returns the final store and the addresses of the
merged episodes. -/
def merge_detections_store (store : List Detection) (input : List Nat) (merge_gap : ℚ) :
    List Detection × List Nat :=
  match input.insertionSort
      (fun a b => (store.getD a default).start_time ≤ (store.getD b default).start_time) with
  | [] => (store, [])
  | id :: ids => mergeLoopStore merge_gap ids (store ++ [store.getD id default]) store.length []

/-! ## Helper lemmas about the merger -/

theorem mergeLoop_eq_foldl (merge_gap : ℚ) :
    ∀ (ds : List Detection) (acc : List Detection) (current : Detection),
      (let p := ds.foldl
        (fun (acc : List Detection × Detection) e =>
          if e.start_time - acc.2.end_time ≤ merge_gap then
            (acc.1, { acc.2 with end_time := max acc.2.end_time e.end_time,
                                 confidence := max acc.2.confidence e.confidence })
          else
            (acc.1 ++ [acc.2], e))
        (acc, current)
       p.1 ++ [p.2]) = acc ++ mergeLoop merge_gap ds current
  | [], acc, current => by simp [mergeLoop]
  | d :: ds, acc, current => by
    by_cases h : d.start_time - current.end_time ≤ merge_gap
    · simp only [mergeLoop, List.foldl_cons, if_pos h]
      exact mergeLoop_eq_foldl merge_gap ds acc _
    · simp only [mergeLoop, List.foldl_cons, if_neg h]
      rw [mergeLoop_eq_foldl merge_gap ds (acc ++ [current]) d]
      simp

theorem merge_detections_eq_spec (detections : List Detection) (merge_gap : ℚ) :
    merge_detections detections merge_gap = mergeDetectionsSpec detections merge_gap := by
  unfold merge_detections mergeDetectionsSpec
  cases h : detections.insertionSort detLE with
  | nil => rfl
  | cons d ds =>
    simpa using (mergeLoop_eq_foldl merge_gap ds [] d).symm

/-! ## C1: the merge algorithm and its concrete scenarios -/

/-- C1.  `merge_detections` implements exactly the algorithm the spec
describes (stable sort by start time, then a scan absorbing any event whose
start is within `merge_gap` of the running episode's accumulated end, taking
maxima of end times and confidences and keeping the running episode's
labels): it coincides with the spec-worded `mergeDetectionsSpec` on every
input, and the concrete scenarios hold: Scenario A with `merge_gap = 1`,
and Scenario D's two cases with `merge_gap = 0`. -/
theorem C1_merge_algorithm :
    (∀ (L : List Detection) (g : ℚ), merge_detections L g = mergeDetectionsSpec L g) ∧
    merge_detections
        [⟨0, 1, 0.5, some "A", some 1⟩, ⟨0.5, 1.5, 0.7, some "B", some 2⟩,
         ⟨3, 4, 0.6, some "C", some 3⟩] 1
      = [⟨0, 1.5, 0.7, some "A", some 1⟩, ⟨3, 4, 0.6, some "C", some 3⟩] ∧
    merge_detections [⟨0, 1, 0.5, some "A", some 1⟩, ⟨1, 2, 0.6, some "B", some 2⟩] 0
      = [⟨0, 2, 0.6, some "A", some 1⟩] ∧
    merge_detections [⟨0, 1, 0.5, some "A", some 1⟩, ⟨1.0001, 2, 0.6, some "B", some 2⟩] 0
      = [⟨0, 1, 0.5, some "A", some 1⟩, ⟨1.0001, 2, 0.6, some "B", some 2⟩] := by
  refine ⟨merge_detections_eq_spec, ?_, ?_, ?_⟩ <;>
    norm_num [merge_detections, mergeLoop, List.insertionSort, List.orderedInsert, detLE]

/-! ## C5: summary of the empty episode list -/

/-- C5 counterexample.  The claim says all six summary fields are present
(and zero) for the empty episode list, but the empty-input branch of
`get_detection_summary` builds a five-key dictionary: `avg_duration` is
absent. -/
theorem C5_counterexample :
    (get_detection_summary []).lookup "avg_duration" = none := by
  simp [get_detection_summary]

/-- C5, amended.  For the empty episode list, `get_detection_summary`
returns a summary in which five of the contract's six fields —
`total_events`, `total_duration`, `avg_confidence`, `max_confidence`,
`min_confidence` — are present and equal to zero, while `avg_duration` is
absent; no division is performed (the empty branch returns literal zeros). -/
theorem C5_empty_summary :
    (get_detection_summary []).lookup "total_events" = some 0 ∧
    (get_detection_summary []).lookup "total_duration" = some 0 ∧
    (get_detection_summary []).lookup "avg_confidence" = some 0 ∧
    (get_detection_summary []).lookup "max_confidence" = some 0 ∧
    (get_detection_summary []).lookup "min_confidence" = some 0 ∧
    (get_detection_summary []).lookup "avg_duration" = none ∧
    (get_detection_summary []).length = 5 := by
  refine ⟨?_, ?_, ?_, ?_, ?_, ?_, ?_⟩ <;> simp [get_detection_summary, List.lookup]

/-! ## C8: negative merge_gap is not rejected -/

/-- C8 counterexample.  The claim says a negative `merge_gap` is rejected
eagerly as a configuration error, but `merge_detections` performs no
validation at all: called with `merge_gap = -1` it silently applies the
negative gap and even merges two overlapping events. -/
theorem C8_counterexample :
    merge_detections
        [⟨0, 2, 0.5, some "A", some 1⟩, ⟨1, 3, 0.6, some "B", some 2⟩] (-1)
      = [⟨0, 3, 0.6, some "A", some 1⟩] := by
  norm_num [merge_detections, mergeLoop, List.insertionSort, List.orderedInsert, detLE]

/-- C8, amended.  `merge_detections` performs no validation of `merge_gap`:
a negative gap is applied as-is in the very same scan, so two sorted events
merge exactly when the second starts at least `|merge_gap|` before the
first one's end. -/
theorem C8_negative_gap_applied (g : ℚ) (hg : g < 0) (a b : Detection)
    (hab : a.start_time ≤ b.start_time) :
    merge_detections [a, b] g =
      if b.start_time - a.end_time ≤ g then
        [{ a with end_time := max a.end_time b.end_time,
                  confidence := max a.confidence b.confidence }]
      else [a, b] := by
  have hle : detLE a b := hab
  simp only [merge_detections, List.insertionSort, List.orderedInsert, if_pos hle]
  by_cases h : b.start_time - a.end_time ≤ g
  · rw [if_pos h]
    simp only [mergeLoop, if_pos h]
  · rw [if_neg h]
    simp only [mergeLoop, if_neg h]

/-- Witness for C8: at `merge_gap = -1` two separated events pass through
unmerged — the call is not rejected. -/
theorem C8_negative_gap_applied_witness :
    merge_detections
        [⟨0, 1, 0.5, some "A", some 1⟩, ⟨5, 6, 0.4, some "B", some 2⟩] (-1)
      = if (5 : ℚ) - 1 ≤ -1 then
          [⟨0, max 1 6, max 0.5 0.4, some "A", some 1⟩]
        else [⟨0, 1, 0.5, some "A", some 1⟩, ⟨5, 6, 0.4, some "B", some 2⟩] := by
  have h := C8_negative_gap_applied (-1) (by norm_num)
    ⟨0, 1, 0.5, some "A", some 1⟩ ⟨5, 6, 0.4, some "B", some 2⟩ (by norm_num)
  simpa using h

/-! ## C6/C7: invariants of the merged output -/

theorem mergeLoop_invariant (g : ℚ) :
    ∀ (ds : List Detection) (cur : Detection), List.Pairwise detLE ds →
      (∀ d ∈ ds, detLE cur d) →
      ∃ h t, mergeLoop g ds cur = h :: t ∧ h.start_time = cur.start_time ∧
        List.Chain' (fun a b => ¬ (b.start_time - a.end_time ≤ g)) (h :: t) ∧
        List.Chain' detLE (h :: t) ∧ ∀ e ∈ h :: t, cur.start_time ≤ e.start_time
  | [], cur, _, _ => ⟨cur, [], rfl, rfl, by simp, by simp, by simp⟩
  | d :: ds, cur, hp, hlb => by
    rcases List.pairwise_cons.mp hp with ⟨hd, hp'⟩
    by_cases hm : d.start_time - cur.end_time ≤ g
    · have hlb' : ∀ x ∈ ds,
          detLE { cur with end_time := max cur.end_time d.end_time,
                           confidence := max cur.confidence d.confidence } x :=
        fun x hx => hlb x (List.mem_cons_of_mem d hx)
      obtain ⟨h, t, heq, hstart, hchg, hchle, hge⟩ :=
        mergeLoop_invariant g ds
          { cur with end_time := max cur.end_time d.end_time,
                     confidence := max cur.confidence d.confidence } hp' hlb'
      refine ⟨h, t, ?_, hstart, hchg, hchle, hge⟩
      simp only [mergeLoop, if_pos hm]
      exact heq
    · obtain ⟨h, t, heq, hstart, hchg, hchle, hge⟩ :=
        mergeLoop_invariant g ds d hp' hd
      refine ⟨cur, h :: t, ?_, rfl, ?_, ?_, ?_⟩
      · simp only [mergeLoop, if_neg hm, heq]
      · exact List.chain'_cons.mpr ⟨by rw [hstart]; exact hm, hchg⟩
      · exact List.chain'_cons.mpr ⟨by
          show cur.start_time ≤ h.start_time
          rw [hstart]; exact hlb d (List.mem_cons_self d ds), hchle⟩
      · intro e he
        rcases List.mem_cons.mp he with rfl | he'
        · exact le_refl _
        · exact le_trans (hlb d (List.mem_cons_self d ds)) (hge e he')

theorem merge_detections_invariant (L : List Detection) (g : ℚ) :
    List.Pairwise detLE (merge_detections L g) ∧
    List.Chain' (fun a b => ¬ (b.start_time - a.end_time ≤ g)) (merge_detections L g) := by
  cases hs : L.insertionSort detLE with
  | nil =>
    have h0 : merge_detections L g = [] := by unfold merge_detections; rw [hs]
    rw [h0]
    simp
  | cons d ds =>
    have h0 : merge_detections L g = mergeLoop g ds d := by unfold merge_detections; rw [hs]
    have hsorted : List.Pairwise detLE (d :: ds) := by
      have := List.sorted_insertionSort detLE L
      rw [hs] at this
      exact this
    rcases List.pairwise_cons.mp hsorted with ⟨hd, hp'⟩
    obtain ⟨h, t, heq, _, hchg, hchle, _⟩ := mergeLoop_invariant g ds d hp' hd
    rw [h0, heq]
    exact ⟨List.chain'_iff_pairwise.mp hchle, hchg⟩

/-- C6.  For every input list and `merge_gap ≥ 0`, the output of
`merge_detections` is sorted by `start_time` ascending, and no two
consecutive output episodes are within `merge_gap` of each other
(`episode[i+1].start_time − episode[i].end_time ≤ merge_gap` never holds),
so consecutive episodes are pairwise non-overlapping with more than
`merge_gap` between their boundaries. -/
theorem C6_merge_monotone (L : List Detection) (g : ℚ) (hg : 0 ≤ g) :
    List.Pairwise (fun a b => a.start_time ≤ b.start_time) (merge_detections L g) ∧
    List.Chain' (fun a b => ¬ (b.start_time - a.end_time ≤ g)) (merge_detections L g) :=
  ⟨(merge_detections_invariant L g).1.imp (fun h => h),
   (merge_detections_invariant L g).2⟩

/-- Witness for C6 at a concrete input. -/
theorem C6_merge_monotone_witness :
    List.Pairwise (fun a b => a.start_time ≤ b.start_time)
      (merge_detections
        [⟨0, 1, 0.5, some "A", some 1⟩, ⟨5, 6, 0.4, some "B", some 2⟩] 1) ∧
    List.Chain' (fun a b => ¬ (b.start_time - a.end_time ≤ 1))
      (merge_detections
        [⟨0, 1, 0.5, some "A", some 1⟩, ⟨5, 6, 0.4, some "B", some 2⟩] 1) :=
  C6_merge_monotone
    [⟨0, 1, 0.5, some "A", some 1⟩, ⟨5, 6, 0.4, some "B", some 2⟩] 1 (by norm_num)

theorem mergeLoop_of_separated (g : ℚ) :
    ∀ (ds : List Detection) (cur : Detection),
      List.Chain' (fun a b => ¬ (b.start_time - a.end_time ≤ g)) (cur :: ds) →
      mergeLoop g ds cur = cur :: ds
  | [], _, _ => rfl
  | d :: ds, cur, hch => by
    rcases List.chain'_cons.mp hch with ⟨hnd, hch'⟩
    simp only [mergeLoop, if_neg hnd]
    rw [mergeLoop_of_separated g ds d hch']

/-- C7.  `merge_detections` is idempotent: re-merging an already-merged
list with the same `merge_gap` returns it unchanged, and the empty input
yields the empty output rather than an error. -/
theorem C7_merge_idempotent (L : List Detection) (g : ℚ) (hg : 0 ≤ g) :
    merge_detections (merge_detections L g) g = merge_detections L g ∧
    merge_detections [] g = [] := by
  refine ⟨?_, rfl⟩
  obtain ⟨hpw, hch⟩ := merge_detections_invariant L g
  have hsorted : (merge_detections L g).insertionSort detLE = merge_detections L g :=
    List.Sorted.insertionSort_eq hpw
  have h0 : merge_detections (merge_detections L g) g =
      match (merge_detections L g).insertionSort detLE with
      | [] => []
      | d :: ds => mergeLoop g ds d := rfl
  rw [h0, hsorted]
  cases hout : merge_detections L g with
  | nil => rfl
  | cons d ds =>
    rw [hout] at hch
    exact mergeLoop_of_separated g ds d hch

/-- Witness for C7 at a concrete input. -/
theorem C7_merge_idempotent_witness :
    merge_detections
        (merge_detections
          [⟨0, 1, 0.5, some "A", some 1⟩, ⟨0.5, 2, 0.7, some "B", some 2⟩] 1) 1
      = merge_detections
          [⟨0, 1, 0.5, some "A", some 1⟩, ⟨0.5, 2, 0.7, some "B", some 2⟩] 1 ∧
    merge_detections [] 1 = [] :=
  C7_merge_idempotent
    [⟨0, 1, 0.5, some "A", some 1⟩, ⟨0.5, 2, 0.7, some "B", some 2⟩] 1 (by norm_num)

/-! ## C2/C3: the chunk scheduler -/

theorem chunksFuel_nil (D C O : ℚ) :
    ∀ (fuel : Nat) (offset : ℚ),
      (processInChunksFuel D C O fuel offset).1 = [] →
      (processInChunksFuel D C O fuel offset).2 = true → ¬ offset < D
  | 0, offset, _, h2 => by simpa [processInChunksFuel] using h2
  | fuel + 1, offset, h1, _ => by
    by_cases hlt : offset < D
    · exfalso
      simp only [processInChunksFuel, if_pos hlt] at h1
      exact absurd h1 (List.cons_ne_nil _ _)
    · exact hlt

theorem chunksFuel_invariant (D C O : ℚ) (hC : 0 < C) (hO : 0 ≤ O) (hOC : O < C) :
    ∀ (fuel : Nat) (offset : ℚ),
      (processInChunksFuel D C O fuel offset).2 = true →
      (∀ (i : Nat) (c : ℚ × ℚ), (processInChunksFuel D C O fuel offset).1.get? i = some c →
          c.1 = offset + i * (C - O)) ∧
      (∀ c ∈ (processInChunksFuel D C O fuel offset).1,
          offset ≤ c.1 ∧ c.1 < D ∧ c.2 = c.1 + min C (D - c.1)) ∧
      (∀ t : ℚ, offset ≤ t → t < D →
          ∃ c ∈ (processInChunksFuel D C O fuel offset).1, c.1 ≤ t ∧ t < c.2) ∧
      (∀ c, (processInChunksFuel D C O fuel offset).1.getLast? = some c → c.2 = D) := by
  intro fuel
  induction fuel with
  | zero =>
    intro offset h2
    have hnd : ¬ offset < D := by simpa [processInChunksFuel] using h2
    refine ⟨?_, ?_, ?_, ?_⟩
    · intro i c hg
      simp [processInChunksFuel] at hg
    · intro c hc
      simp [processInChunksFuel] at hc
    · intro t hot htD
      exact absurd (lt_of_le_of_lt hot htD) hnd
    · intro c hc
      simp [processInChunksFuel] at hc
  | succ fuel ih =>
    intro offset h2
    by_cases hlt : offset < D
    · have hstep : processInChunksFuel D C O (fuel + 1) offset =
          ((offset, offset + min C (D - offset)) ::
            (processInChunksFuel D C O fuel (offset + (C - O))).1,
           (processInChunksFuel D C O fuel (offset + (C - O))).2) := by
        simp only [processInChunksFuel]
        rw [if_pos hlt]
      have h2' : (processInChunksFuel D C O fuel (offset + (C - O))).2 = true := by
        rw [hstep] at h2
        exact h2
      obtain ⟨ih1, ih2, ih3, ih4⟩ := ih (offset + (C - O)) h2'
      have hoo : offset ≤ offset + (C - O) := by linarith
      refine ⟨?_, ?_, ?_, ?_⟩
      · intro i c hg
        rw [hstep] at hg
        cases i with
        | zero =>
          simp only [List.get?_cons_zero, Option.some_inj] at hg
          rw [← hg]
          push_cast
          ring
        | succ i =>
          simp only [List.get?_cons_succ] at hg
          have := ih1 i c hg
          rw [this]
          push_cast
          ring
      · intro c hc
        rw [hstep] at hc
        rcases List.mem_cons.mp hc with rfl | hc'
        · exact ⟨le_refl _, hlt, rfl⟩
        · obtain ⟨ha, hb, he⟩ := ih2 c hc'
          exact ⟨le_trans hoo ha, hb, he⟩
      · intro t hot htD
        rw [hstep]
        by_cases hth : t < offset + min C (D - offset)
        · exact ⟨(offset, offset + min C (D - offset)), List.mem_cons_self _ _, hot, hth⟩
        · have hge : offset + min C (D - offset) ≤ t := le_of_not_lt hth
          rcases le_total C (D - offset) with hmin | hmin
          · rw [min_eq_left hmin] at hge
            have hot' : offset + (C - O) ≤ t := by linarith
            obtain ⟨c, hc, hc1, hc2⟩ := ih3 t hot' htD
            exact ⟨c, List.mem_cons_of_mem _ hc, hc1, hc2⟩
          · rw [min_eq_right hmin] at hge
            exact absurd htD (by linarith)
      · intro c hc
        rw [hstep] at hc
        cases hr1 : (processInChunksFuel D C O fuel (offset + (C - O))).1 with
        | nil =>
          rw [hr1] at hc
          have hcc : c = (offset, offset + min C (D - offset)) := by
            simpa using hc.symm
          have hend : ¬ offset + (C - O) < D := chunksFuel_nil D C O fuel _ hr1 h2'
          have hDle : D - offset ≤ C := by linarith
          rw [hcc]
          simp only [min_eq_right hDle]
          ring
        | cons h' t' =>
          rw [hr1, List.getLast?_cons_cons] at hc
          exact ih4 c (by rw [hr1]; exact hc)
    · have hstep : processInChunksFuel D C O (fuel + 1) offset = ([], true) := by
        simp only [processInChunksFuel]
        rw [if_neg hlt]
      refine ⟨?_, ?_, ?_, ?_⟩
      · intro i c hg
        rw [hstep] at hg
        simp at hg
      · intro c hc
        rw [hstep] at hc
        simp at hc
      · intro t hot htD
        exact absurd (lt_of_le_of_lt hot htD) hlt
      · intro c hc
        rw [hstep] at hc
        simp at hc

theorem chunksFuel_terminates (D C O : ℚ) :
    ∀ (n : Nat) (offset : ℚ), D - offset ≤ n * (C - O) →
      (processInChunksFuel D C O n offset).2 = true
  | 0, offset, h => by
    have hnd : ¬ offset < D := by
      intro hlt
      simp only [Nat.cast_zero, zero_mul] at h
      linarith
    simp [processInChunksFuel, hnd]
  | n + 1, offset, h => by
    by_cases hlt : offset < D
    · have hexp : ((n : ℚ) + 1) * (C - O) = n * (C - O) + (C - O) := by ring
      have h' : D - (offset + (C - O)) ≤ n * (C - O) := by
        push_cast at h
        rw [hexp] at h
        linarith
      have hrec := chunksFuel_terminates D C O n (offset + (C - O)) h'
      simp only [processInChunksFuel]
      rw [if_pos hlt]
      simpa using hrec
    · simp only [processInChunksFuel]
      rw [if_neg hlt]

/-- C2.  For `D ≥ 0`, `C > 0`, `0 ≤ O < C`, the chunk generator terminates
(some fuel completes the loop), and any completed run yields chunks whose
start offsets are `0, C−O, 2(C−O), …`, whose intervals cover `[0, D)`
exactly (a time is in `[0, D)` iff some chunk contains it), each chunk
starting before `D`, with the last chunk ending exactly at `D`; Scenario B
(`D = 125`, `C = 60`, `O = 2`) gives starts `[0, 58, 116]` and a last chunk
`[116, 125)`. -/
theorem C2_chunk_scheduler (D C O : ℚ) (hD : 0 ≤ D) (hC : 0 < C) (hO : 0 ≤ O)
    (hOC : O < C) :
    (∃ fuel, (processInChunksFuel D C O fuel 0).2 = true) ∧
    (∀ fuel, (processInChunksFuel D C O fuel 0).2 = true →
      (∀ (i : Nat) (c : ℚ × ℚ),
          (processInChunksFuel D C O fuel 0).1.get? i = some c → c.1 = i * (C - O)) ∧
      (∀ t : ℚ, (0 ≤ t ∧ t < D) ↔
          ∃ c ∈ (processInChunksFuel D C O fuel 0).1, c.1 ≤ t ∧ t < c.2) ∧
      (∀ c ∈ (processInChunksFuel D C O fuel 0).1, c.1 < D) ∧
      (∀ c, (processInChunksFuel D C O fuel 0).1.getLast? = some c → c.2 = D)) ∧
    (processInChunksFuel 125 60 2 3 0).1.map Prod.fst = [0, 58, 116] ∧
    (processInChunksFuel 125 60 2 3 0).1.getLast? = some (116, 125) ∧
    (processInChunksFuel 125 60 2 3 0).2 = true := by
  refine ⟨?_, ?_, ?_, ?_, ?_⟩
  · refine ⟨Nat.ceil (D / (C - O)), chunksFuel_terminates D C O _ 0 ?_⟩
    have hpos : (0 : ℚ) < C - O := by linarith
    have h1 : D / (C - O) ≤ (Nat.ceil (D / (C - O)) : ℚ) := Nat.le_ceil _
    rw [div_le_iff hpos] at h1
    simpa using h1
  · intro fuel hfin
    obtain ⟨h1, h2, h3, h4⟩ := chunksFuel_invariant D C O hC hO hOC fuel 0 hfin
    refine ⟨?_, ?_, ?_, h4⟩
    · intro i c hg
      have := h1 i c hg
      rw [this]
      ring
    · intro t
      constructor
      · intro ⟨ht0, htD⟩
        exact h3 t ht0 htD
      · intro ⟨c, hc, hc1, hc2⟩
        obtain ⟨ha, hb, he⟩ := h2 c hc
        constructor
        · exact le_trans ha hc1
        · have : min C (D - c.1) ≤ D - c.1 := min_le_right _ _
          rw [he] at hc2
          linarith
    · intro c hc
      exact (h2 c hc).2.1
  · norm_num [processInChunksFuel, min_def]
  · norm_num [processInChunksFuel, min_def]
  · norm_num [processInChunksFuel]

/-- Witness for C2: the Scenario B conjuncts at `D = 125`, `C = 60`,
`O = 2`, extracted by applying the theorem with its hypotheses discharged. -/
theorem C2_chunk_scheduler_witness :
    (processInChunksFuel 125 60 2 3 0).1.map Prod.fst = [0, 58, 116] ∧
    (processInChunksFuel 125 60 2 3 0).1.getLast? = some (116, 125) ∧
    (processInChunksFuel 125 60 2 3 0).2 = true :=
  (C2_chunk_scheduler 125 60 2 (by norm_num) (by norm_num) (by norm_num)
    (by norm_num)).2.2

/-- C3 counterexample.  The claim says `C ≤ 0` or `O ≥ C` fails fast with a
configuration error before producing any chunk; but `process_in_chunks`
performs no validation: at `D = 1`, `C = 0`, `O = 0` the very first yielded
chunk is the zero-duration `(0, 0)`, and the loop never finishes (five
steps of fuel later it is still running — `offset` never advances). -/
theorem C3_counterexample :
    (processInChunksFuel 1 0 0 1 0).1 = [(0, 0)] ∧
    (processInChunksFuel 1 0 0 5 0).2 = false := by
  norm_num [processInChunksFuel, min_def]

/-- C3, amended.  The chunk scheduler performs no validation of
`chunk_duration` and `overlap`: for a recording of positive duration, if
`O ≥ C` the loop never terminates (no amount of fuel completes it, the
offset never advancing), and if `C ≤ 0` the first yielded chunk
`(0, min C D)` has non-positive duration; no error is raised in either
case. -/
theorem C3_no_validation (D C O : ℚ) (hD : 0 < D) :
    (C ≤ O → ∀ fuel, (processInChunksFuel D C O fuel 0).2 = false) ∧
    (C ≤ 0 → ∀ fuel,
      (processInChunksFuel D C O (fuel + 1) 0).1.head? = some (0, 0 + min C (D - 0)) ∧
      0 + min C (D - 0) ≤ 0) := by
  constructor
  · intro hCO
    have key : ∀ (fuel : Nat) (offset : ℚ), offset < D →
        (processInChunksFuel D C O fuel offset).2 = false := by
      intro fuel
      induction fuel with
      | zero =>
        intro offset hlt
        simp [processInChunksFuel, hlt]
      | succ fuel ih =>
        intro offset hlt
        have hlt' : offset + (C - O) < D := by linarith
        have hstep : processInChunksFuel D C O (fuel + 1) offset =
            ((offset, offset + min C (D - offset)) ::
              (processInChunksFuel D C O fuel (offset + (C - O))).1,
             (processInChunksFuel D C O fuel (offset + (C - O))).2) := by
          simp only [processInChunksFuel]
          rw [if_pos hlt]
        rw [hstep]
        exact ih (offset + (C - O)) hlt'
    intro fuel
    exact key fuel 0 hD
  · intro hC0 fuel
    have hstep : processInChunksFuel D C O (fuel + 1) 0 =
        ((0, 0 + min C (D - 0)) ::
          (processInChunksFuel D C O fuel (0 + (C - O))).1,
         (processInChunksFuel D C O fuel (0 + (C - O))).2) := by
      simp only [processInChunksFuel]
      rw [if_pos hD]
    constructor
    · rw [hstep]
      rfl
    · have : min C (D - 0) ≤ C := min_le_left _ _
      linarith

/-- Witness for C3: concrete instances of both amended conclusions at
`D = 1`, `C = 0`, `O = 0`. -/
theorem C3_no_validation_witness :
    (processInChunksFuel 1 0 0 7 0).2 = false ∧
    (processInChunksFuel 1 0 0 4 0).1.head? = some (0, 0 + min 0 (1 - 0)) ∧
    (0 : ℚ) + min 0 (1 - 0) ≤ 0 :=
  ⟨(C3_no_validation 1 0 0 (by norm_num)).1 (by norm_num) 7,
   (C3_no_validation 1 0 0 (by norm_num)).2 (by norm_num) 3⟩

/-! ## C9: chunk-local to global timestamp reconciliation -/

theorem process_audio_file_eq_flatten :
    ∀ (chunks : List (ℚ × List Detection)) (acc : List Detection),
      chunks.foldl (fun acc c => acc ++ adjustDetections c.1 c.2) acc =
        acc ++ (chunks.map (fun c => adjustDetections c.1 c.2)).flatten
  | [], acc => by simp
  | c :: cs, acc => by
    simp only [List.foldl_cons, List.map_cons, List.flatten_cons]
    rw [process_audio_file_eq_flatten cs (acc ++ adjustDetections c.1 c.2)]
    simp

/-- C9.  An event extracted from chunk `k` with chunk-local times `(t, u)`
appears in the accumulated global list of `process_audio_file` with
`start_time = global_start + t` and `end_time = global_start + u`, all other
fields unchanged — the offset addition is the sole reconciliation.  The
final conjunct exercises it concretely: a chunk starting at `100` with one
local event `(1, 2)` yields the global event `(101, 102)`. -/
theorem C9_global_timestamps (chunks : List (ℚ × List Detection)) (k : Nat)
    (hk : k < chunks.length) (i : Nat) (hi : i < (chunks.get ⟨k, hk⟩).2.length) :
    (∃ d' ∈ process_audio_file chunks,
      d'.start_time =
        (chunks.get ⟨k, hk⟩).1 + ((chunks.get ⟨k, hk⟩).2.get ⟨i, hi⟩).start_time ∧
      d'.end_time =
        (chunks.get ⟨k, hk⟩).1 + ((chunks.get ⟨k, hk⟩).2.get ⟨i, hi⟩).end_time ∧
      d'.confidence = ((chunks.get ⟨k, hk⟩).2.get ⟨i, hi⟩).confidence ∧
      d'.class_name = ((chunks.get ⟨k, hk⟩).2.get ⟨i, hi⟩).class_name ∧
      d'.class_index = ((chunks.get ⟨k, hk⟩).2.get ⟨i, hi⟩).class_index) ∧
    process_audio_file [(100, [⟨1, 2, 0.9, some "Bark", some 0⟩])]
      = [⟨101, 102, 0.9, some "Bark", some 0⟩] := by
  constructor
  · have hout : process_audio_file chunks =
        (chunks.map (fun c => adjustDetections c.1 c.2)).flatten := by
      unfold process_audio_file
      rw [process_audio_file_eq_flatten chunks []]
      simp
    set p := chunks.get ⟨k, hk⟩ with hp
    set d := p.2.get ⟨i, hi⟩ with hd
    refine ⟨{ d with start_time := d.start_time + p.1, end_time := d.end_time + p.1 },
      ?_, ?_, ?_, rfl, rfl, rfl⟩
    · rw [hout]
      apply List.mem_flatten.mpr
      refine ⟨adjustDetections p.1 p.2, ?_, ?_⟩
      · exact List.mem_map_of_mem _ (chunks.get_mem k hk)
      · exact List.mem_map_of_mem _ (p.2.get_mem i hi)
    · exact add_comm _ _
    · exact add_comm _ _
  · norm_num [process_audio_file, adjustDetections]

/-- Witness for C9: its concrete conjunct, obtained by applying the theorem
at the same one-chunk input. -/
theorem C9_global_timestamps_witness :
    process_audio_file [(100, [⟨1, 2, 0.9, some "Bark", some 0⟩])]
      = [⟨101, 102, 0.9, some "Bark", some 0⟩] :=
  (C9_global_timestamps [(100, [⟨1, 2, 0.9, some "Bark", some 0⟩])] 0 (by decide) 0
    (by decide)).2

/-! ## C10: the merger does not mutate its input -/

theorem mergeLoopStore_frame (g : ℚ) :
    ∀ (ids : List Nat) (store : List Detection) (curId : Nat) (merged : List Nat) (n : Nat),
      n ≤ store.length → n ≤ curId →
      (mergeLoopStore g ids store curId merged).1.take n = store.take n
  | [], _, _, _, _, _, _ => rfl
  | id :: ids, store, curId, merged, n, hlen, hcur => by
    simp only [mergeLoopStore]
    by_cases hm : (store.getD id default).start_time -
        (store.getD curId default).end_time ≤ g
    · rw [if_pos hm]
      refine (mergeLoopStore_frame g ids _ curId merged n (by simpa using hlen) hcur).trans ?_
      rw [List.set_take]
      apply List.set_eq_of_length_le
      simp only [List.length_take]
      omega
    · rw [if_neg hm]
      refine (mergeLoopStore_frame g ids _ store.length (merged ++ [curId]) n
        (by simp; omega) hlen).trans ?_
      rw [List.take_append_eq_append_take]
      have hz : n - store.length = 0 := by omega
      rw [hz]
      simp

/-- C10.  The store-level model of `merge_detections` never writes to any
cell the caller already held: the final store extends the initial store,
every pre-existing cell (in particular every event dictionary of the input
list) being unchanged — absorption mutates only the freshly allocated
copies — so the caller's accumulated event list can be reused after the
merge. -/
theorem C10_merge_preserves_input (store : List Detection) (input : List Nat) (g : ℚ) :
    (merge_detections_store store input g).1.take store.length = store := by
  cases hs : input.insertionSort
      (fun a b => (store.getD a default).start_time ≤ (store.getD b default).start_time) with
  | nil =>
    have h0 : merge_detections_store store input g = (store, []) := by
      unfold merge_detections_store
      rw [hs]
    rw [h0]
    exact List.take_length store
  | cons id ids =>
    have h0 : merge_detections_store store input g =
        mergeLoopStore g ids (store ++ [store.getD id default]) store.length [] := by
      unfold merge_detections_store
      rw [hs]
    rw [h0]
    refine (mergeLoopStore_frame g ids _ store.length [] store.length (by simp)
      (le_refl _)).trans ?_
    exact List.take_left store [store.getD id default]

/-! ## C4: the event extractor -/

theorem le_foldl_max (fs : List ℚ) :
    ∀ (idxs : List Nat) (s : ℚ),
      s ≤ idxs.foldl (fun m j => max m (fs.getD j 0)) s ∧
      ∀ j ∈ idxs, fs.getD j 0 ≤ idxs.foldl (fun m j => max m (fs.getD j 0)) s
  | [], s => ⟨le_refl s, by simp⟩
  | idx :: rest, s => by
    obtain ⟨hs, hall⟩ := le_foldl_max fs rest (max s (fs.getD idx 0))
    refine ⟨le_trans (le_max_left _ _) hs, ?_⟩
    intro j hj
    rcases List.mem_cons.mp hj with rfl | hj'
    · exact le_trans (le_max_right _ _) hs
    · exact hall j hj'

theorem foldl_max_attained (fs : List ℚ) :
    ∀ (idxs : List Nat) (s : ℚ),
      idxs.foldl (fun m j => max m (fs.getD j 0)) s = s ∨
      ∃ j ∈ idxs, idxs.foldl (fun m j => max m (fs.getD j 0)) s = fs.getD j 0
  | [], s => Or.inl rfl
  | idx :: rest, s => by
    rcases foldl_max_attained fs rest (max s (fs.getD idx 0)) with h | ⟨j, hj, h⟩
    · simp only [List.foldl_cons]
      rcases max_choice s (fs.getD idx 0) with hm | hm
      · rw [h, hm]
        exact Or.inl rfl
      · rw [h, hm]
        exact Or.inr ⟨idx, List.mem_cons_self _ _, rfl⟩
    · exact Or.inr ⟨j, List.mem_cons_of_mem _ hj, h⟩

theorem scanDogClasses_fst (cn : List String) (fs : List ℚ) :
    ∀ (idxs : List Nat) (acc : ℚ × Option String × Option Nat),
      (scanDogClasses cn fs idxs acc).1 =
        idxs.foldl (fun m j => max m (fs.getD j 0)) acc.1
  | [], acc => rfl
  | idx :: rest, acc => by
    simp only [scanDogClasses, List.foldl_cons]
    by_cases h : acc.1 < fs.getD idx 0
    · rw [if_pos h, scanDogClasses_fst cn fs rest _, max_eq_right (le_of_lt h)]
    · rw [if_neg h, scanDogClasses_fst cn fs rest acc,
        max_eq_left (le_of_not_lt h)]

theorem scanDogClasses_selected (cn : List String) (fs : List ℚ) :
    ∀ (idxs : List Nat) (acc : ℚ × Option String × Option Nat),
      scanDogClasses cn fs idxs acc = acc ∨
      ∃ j ∈ idxs, (scanDogClasses cn fs idxs acc).2 = (cn.get? j, some j) ∧
        fs.getD j 0 = (scanDogClasses cn fs idxs acc).1 ∧
        acc.1 < (scanDogClasses cn fs idxs acc).1
  | [], acc => Or.inl rfl
  | idx :: rest, acc => by
    by_cases h : acc.1 < fs.getD idx 0
    · have hstep : scanDogClasses cn fs (idx :: rest) acc =
          scanDogClasses cn fs rest (fs.getD idx 0, cn.get? idx, some idx) := by
        simp only [scanDogClasses]
        rw [if_pos h]
      rcases scanDogClasses_selected cn fs rest (fs.getD idx 0, cn.get? idx, some idx)
          with heq | ⟨j, hj, h2, h3, h4⟩
      · refine Or.inr ⟨idx, List.mem_cons_self _ _, ?_, ?_, ?_⟩
        · rw [hstep, heq]
        · rw [hstep, heq]
        · rw [hstep, heq]
          exact h
      · refine Or.inr ⟨j, List.mem_cons_of_mem _ hj, ?_, ?_, ?_⟩
        · rw [hstep]
          exact h2
        · rw [hstep]
          exact h3
        · rw [hstep]
          exact lt_trans h h4
    · have hstep : scanDogClasses cn fs (idx :: rest) acc =
          scanDogClasses cn fs rest acc := by
        simp only [scanDogClasses]
        rw [if_neg h]
      rcases scanDogClasses_selected cn fs rest acc with heq | ⟨j, hj, h2, h3, h4⟩
      · exact Or.inl (hstep.trans heq)
      · refine Or.inr ⟨j, List.mem_cons_of_mem _ hj, ?_, ?_, ?_⟩
        · rw [hstep]
          exact h2
        · rw [hstep]
          exact h3
        · rw [hstep]
          exact h4

theorem detectFrames_mem (cn : List String) (tIdx : List Nat) (t : ℚ) :
    ∀ (scores : List (List ℚ)) (i0 : Nat) (d : Detection),
      d ∈ detectFrames cn tIdx t i0 scores ↔
      ∃ i, ∃ hi : i < scores.length,
        t ≤ (scanDogClasses cn (scores.get ⟨i, hi⟩) tIdx (0, none, none)).1 ∧
        d = { start_time := ((i0 + i : Nat) : ℚ) * 0.48,
              end_time := ((i0 + i : Nat) : ℚ) * 0.48 + 0.96,
              confidence := (scanDogClasses cn (scores.get ⟨i, hi⟩) tIdx (0, none, none)).1,
              class_name := (scanDogClasses cn (scores.get ⟨i, hi⟩) tIdx (0, none, none)).2.1,
              class_index :=
                (scanDogClasses cn (scores.get ⟨i, hi⟩) tIdx (0, none, none)).2.2 }
  | [], i0, d => by
    simp only [detectFrames, List.not_mem_nil, false_iff]
    rintro ⟨i, hi, -⟩
    exact absurd hi (Nat.not_lt_zero i)
  | fs :: rest, i0, d => by
    have hunf : detectFrames cn tIdx t i0 (fs :: rest) =
        (if t ≤ (scanDogClasses cn fs tIdx (0, none, none)).1 then
          [{ start_time := (i0 : ℚ) * 0.48, end_time := (i0 : ℚ) * 0.48 + 0.96,
             confidence := (scanDogClasses cn fs tIdx (0, none, none)).1,
             class_name := (scanDogClasses cn fs tIdx (0, none, none)).2.1,
             class_index := (scanDogClasses cn fs tIdx (0, none, none)).2.2 }]
         else []) ++ detectFrames cn tIdx t (i0 + 1) rest := by
      simp only [detectFrames]
    rw [hunf]
    constructor
    · intro hd
      rcases List.mem_append.mp hd with h | h
      · by_cases hc : t ≤ (scanDogClasses cn fs tIdx (0, none, none)).1
        · rw [if_pos hc] at h
          refine ⟨0, Nat.succ_pos _, hc, ?_⟩
          have hd0 := List.mem_singleton.mp h
          rw [hd0]
          simp
        · rw [if_neg hc] at h
          exact absurd h (List.not_mem_nil d)
      · obtain ⟨i, hi, hsc, hdev⟩ := (detectFrames_mem cn tIdx t rest (i0 + 1) d).mp h
        refine ⟨i + 1, Nat.succ_lt_succ hi, ?_, ?_⟩
        · simpa using hsc
        · have hcast : (i0 + (i + 1) : Nat) = ((i0 + 1) + i : Nat) := by omega
          rw [hdev]
          simp only [List.get_cons_succ, hcast]
    · rintro ⟨i, hi, hsc, hdev⟩
      cases i with
      | zero =>
        apply List.mem_append_left
        have hc : t ≤ (scanDogClasses cn fs tIdx (0, none, none)).1 := by
          simpa using hsc
        rw [if_pos hc]
        rw [hdev]
        simp
      | succ i =>
        apply List.mem_append_right
        apply (detectFrames_mem cn tIdx t rest (i0 + 1) d).mpr
        refine ⟨i, Nat.lt_of_succ_lt_succ hi, ?_, ?_⟩
        · simpa using hsc
        · have hcast : (i0 + (i + 1) : Nat) = ((i0 + 1) + i : Nat) := by omega
          rw [hdev]
          simp only [List.get_cons_succ, hcast]

theorem detectFrames_start_lb (cn : List String) (tIdx : List Nat) (t : ℚ)
    (scores : List (List ℚ)) (i0 : Nat) (d : Detection)
    (hd : d ∈ detectFrames cn tIdx t i0 scores) :
    (i0 : ℚ) * 0.48 ≤ d.start_time := by
  obtain ⟨i, hi, _, hdev⟩ := (detectFrames_mem cn tIdx t scores i0 d).mp hd
  rw [hdev]
  have hle : (i0 : ℚ) ≤ ((i0 + i : Nat) : ℚ) := by
    push_cast
    linarith [Nat.cast_nonneg (α := ℚ) i]
  exact mul_le_mul_of_nonneg_right hle (by norm_num)

theorem detectFrames_pairwise (cn : List String) (tIdx : List Nat) (t : ℚ) :
    ∀ (scores : List (List ℚ)) (i0 : Nat),
      List.Pairwise (fun a b => a.start_time < b.start_time)
        (detectFrames cn tIdx t i0 scores)
  | [], i0 => by simp [detectFrames]
  | fs :: rest, i0 => by
    simp only [detectFrames]
    apply List.pairwise_append.mpr
    refine ⟨?_, detectFrames_pairwise cn tIdx t rest (i0 + 1), ?_⟩
    · split
      · simp
      · simp
    · intro a ha b hb
      have ha' : a.start_time = (i0 : ℚ) * 0.48 := by
        split at ha
        · rw [List.mem_singleton.mp ha]
        · exact absurd ha (List.not_mem_nil a)
      have hb' : ((i0 + 1 : Nat) : ℚ) * 0.48 ≤ b.start_time :=
        detectFrames_start_lb cn tIdx t rest (i0 + 1) b hb
      rw [ha']
      refine lt_of_lt_of_le ?_ hb'
      push_cast
      nlinarith [Nat.cast_nonneg (α := ℚ) i0]

/-- C4, amended.  Provided the confidence threshold is strictly positive
(and every target index is in range of the class list and of each frame's
score vector), `detect_in_waveform` emits exactly one event per frame whose
maximum target-class probability reaches the threshold and none for any
other frame; an emitted event carries the index, label and score of a
highest-scoring target class of its frame, and frame `i` spans
`[i·0.48, i·0.48 + 0.96)` in chunk-local time.  (At threshold `0` the claim
fails: see the counterexample.)  The final conjunct is a concrete run. -/
theorem C4_event_extractor (cn : List String) (tIdx : List Nat) (t : ℚ)
    (scores : List (List ℚ)) (ht : 0 < t)
    (hcn : ∀ j ∈ tIdx, j < cn.length)
    (hfs : ∀ fs ∈ scores, ∀ j ∈ tIdx, j < fs.length) :
    (∀ (i : Nat) (hi : i < scores.length),
      (∃ d ∈ detect_in_waveform cn tIdx t scores, d.start_time = (i : ℚ) * 0.48) ↔
      ∃ j ∈ tIdx, t ≤ (scores.get ⟨i, hi⟩).getD j 0) ∧
    (∀ d ∈ detect_in_waveform cn tIdx t scores,
      ∃ i, ∃ hi : i < scores.length, ∃ j, ∃ hj : j ∈ tIdx,
        d.start_time = (i : ℚ) * 0.48 ∧ d.end_time = (i : ℚ) * 0.48 + 0.96 ∧
        d.class_index = some j ∧ d.class_name = cn.get? j ∧
        d.class_name = some (cn.get ⟨j, hcn j hj⟩) ∧
        d.confidence = (scores.get ⟨i, hi⟩).getD j 0 ∧ t ≤ d.confidence ∧
        ∀ k ∈ tIdx, (scores.get ⟨i, hi⟩).getD k 0 ≤ d.confidence) ∧
    List.Pairwise (fun a b => a.start_time < b.start_time)
      (detect_in_waveform cn tIdx t scores) ∧
    detect_in_waveform ["Bark", "Dog"] [0, 1] (3 / 10)
        [[1 / 2, 1 / 5], [1 / 10, 0], [0, 2 / 5]]
      = [⟨0, 0.96, 1 / 2, some "Bark", some 0⟩,
         ⟨0.96, 1.92, 2 / 5, some "Dog", some 1⟩] := by
  refine ⟨?_, ?_, ?_, ?_⟩
  · intro i hi
    constructor
    · rintro ⟨d, hd, hst⟩
      obtain ⟨i', hi', hsc, hdev⟩ := (detectFrames_mem cn tIdx t scores 0 d).mp hd
      have hii : i' = i := by
        rw [hdev] at hst
        simp only [Nat.zero_add] at hst
        have h48 : ((i' : ℚ)) = (i : ℚ) :=
          mul_right_cancel₀ (by norm_num : (0.48 : ℚ) ≠ 0) hst
        exact_mod_cast h48
      subst hii
      rcases foldl_max_attained (scores.get ⟨i', hi'⟩) tIdx 0 with hz | ⟨j, hj, hjv⟩
      · rw [scanDogClasses_fst cn (scores.get ⟨i', hi'⟩) tIdx (0, none, none)] at hsc
        rw [hz] at hsc
        exact absurd (lt_of_lt_of_le ht hsc) (lt_irrefl 0)
      · refine ⟨j, hj, ?_⟩
        rw [scanDogClasses_fst cn (scores.get ⟨i', hi'⟩) tIdx (0, none, none)] at hsc
        rw [hjv] at hsc
        exact hsc
    · rintro ⟨j, hj, htj⟩
      have hM : t ≤ (scanDogClasses cn (scores.get ⟨i, hi⟩) tIdx (0, none, none)).1 := by
        rw [scanDogClasses_fst cn (scores.get ⟨i, hi⟩) tIdx (0, none, none)]
        exact le_trans htj ((le_foldl_max (scores.get ⟨i, hi⟩) tIdx 0).2 j hj)
      refine ⟨_, (detectFrames_mem cn tIdx t scores 0 _).mpr ⟨i, hi, hM, rfl⟩, ?_⟩
      simp
  · intro d hd
    obtain ⟨i, hi, hsc, hdev⟩ := (detectFrames_mem cn tIdx t scores 0 d).mp hd
    rcases scanDogClasses_selected cn (scores.get ⟨i, hi⟩) tIdx (0, none, none)
        with heq | ⟨j, hj, h2, h3, _⟩
    · rw [heq] at hsc
      exact absurd (lt_of_lt_of_le ht hsc) (lt_irrefl 0)
    · refine ⟨i, hi, j, hj, ?_, ?_, ?_, ?_, ?_, ?_, ?_, ?_⟩
      · rw [hdev]
        simp
      · rw [hdev]
        simp
      · rw [hdev]
        show (scanDogClasses cn (scores.get ⟨i, hi⟩) tIdx (0, none, none)).2.2 = some j
        rw [h2]
      · rw [hdev]
        show (scanDogClasses cn (scores.get ⟨i, hi⟩) tIdx (0, none, none)).2.1 = cn.get? j
        rw [h2]
      · rw [hdev]
        show (scanDogClasses cn (scores.get ⟨i, hi⟩) tIdx (0, none, none)).2.1 =
          some (cn.get ⟨j, hcn j hj⟩)
        rw [h2]
        exact List.get?_eq_get (hcn j hj)
      · rw [hdev]
        exact h3.symm
      · rw [hdev]
        exact hsc
      · intro k hk
        rw [hdev]
        show (scores.get ⟨i, hi⟩).getD k 0 ≤
          (scanDogClasses cn (scores.get ⟨i, hi⟩) tIdx (0, none, none)).1
        rw [scanDogClasses_fst cn (scores.get ⟨i, hi⟩) tIdx (0, none, none)]
        exact (le_foldl_max (scores.get ⟨i, hi⟩) tIdx 0).2 k hk
  · exact detectFrames_pairwise cn tIdx t scores 0
  · norm_num [detect_in_waveform, detectFrames, scanDogClasses, List.getD, List.get?]

/-- C4 counterexample.  At `confidence_threshold = 0`, a frame whose only
target class scores exactly `0` still emits an event, and that event's
`class_name`/`class_index` are `none` — not the label and index of the
highest-scoring target class (`"Bark"`, index `0`) as the claim requires. -/
theorem C4_counterexample :
    detect_in_waveform ["Bark"] [0] 0 [[0]] = [⟨0, 0.96, 0, none, none⟩] := by
  norm_num [detect_in_waveform, detectFrames, scanDogClasses, List.getD, List.get?]

/-- Witness for C4: the concrete-run conjunct, with the hypotheses
discharged at the concrete input. -/
theorem C4_event_extractor_witness :
    detect_in_waveform ["Bark", "Dog"] [0, 1] (3 / 10)
        [[1 / 2, 1 / 5], [1 / 10, 0], [0, 2 / 5]]
      = [⟨0, 0.96, 1 / 2, some "Bark", some 0⟩,
         ⟨0.96, 1.92, 2 / 5, some "Dog", some 1⟩] :=
  (C4_event_extractor ["Bark", "Dog"] [0, 1] (3 / 10)
    [[1 / 2, 1 / 5], [1 / 10, 0], [0, 2 / 5]] (by norm_num)
    (by norm_num) (by norm_num)).2.2.2
